import Mathlib

/-!
Verification of the ft8_lib codec core (cerkit/cw-companion).

The repository ships only the umbrella header
`ft8_lib/include/ft8_lib.h`; the implementation units it lists
(`ft8/crc.h`, `ft8/ldpc.h`, `ft8/encode.h`, `ft8/message.h`,
`ft8/decode.h`, `common/monitor.h`) are not present in the tree, so
every component below is modelled from the specification's own
description of that component and verified against that model.
-/

namespace FT8

/-! ## Checksum Engine (spec 4.1, `ft8/crc.h`)

Modelled from the spec: `ft8/crc.h` is absent from the tree.  The spec
describes "a fixed polynomial-based shift-register algorithm over the
input bit sequence, producing a constant-width remainder" of width 14
bits.  We model the shift register over `Nat`, one input bit per step,
with the degree-14 generator polynomial `0x6757` (low fourteen
coefficient bits `0x2757`, constant term set, as for the FT8 protocol
family this library implements). -/

/-- Modelled from the spec: the missing `ft8/crc.h`.  Width of the
checksum in bits. -/
def CRC_WIDTH : Nat := 14

/-- Modelled from the spec: the missing `ft8/crc.h`.  The full
degree-14 generator polynomial (bit 14 down to bit 0). -/
def CRC_GENERATOR : Nat := 0x6757

/-- Modelled from the spec: the missing `ft8/crc.h`.  One step of the
polynomial shift register: shift the state left, feed the next message
bit into the low end, and reduce by the generator when the bit shifted
past position 13 is set. -/
def crcStep (st : Nat) (b : Bool) : Nat :=
  ((st <<< 1) ^^^ (if b then 1 else 0)) ^^^
    (if st.testBit 13 then CRC_GENERATOR else 0)

/-- Modelled from the spec: the missing `ft8/crc.h`.  `compute(bits)`:
run the shift register over the payload bits starting from the zero
state; the final state is the 14-bit checksum remainder. -/
def crcCompute (bits : List Bool) : Nat :=
  bits.foldl crcStep 0

/-- Modelled from the spec: the missing `ft8/crc.h`.
`verify(bits, checksum_bits)`: recompute the checksum over the payload
bits and compare with the received checksum. -/
def crcVerify (bits : List Bool) (checksum : Nat) : Bool :=
  crcCompute bits == checksum

/-- Payload length in bits (spec section 3: 77-bit payload). -/
def PAYLOAD_BITS : Nat := 77

/-- Flip bit `i` of a payload bit sequence. -/
def flipBit (bits : List Bool) (i : Nat) : List Bool :=
  bits.set i (! bits.getD i false)

/-! Linearity of the shift register over GF(2), used to show that a
single-bit flip always changes the checksum. -/

/-- Pointwise xor of two bit sequences. -/
def zipXor (xs ys : List Bool) : List Bool :=
  List.zipWith xor xs ys

/-- The indicator bit sequence of length `n` that is `true` exactly at
position `i`. -/
def unitVec (n i : Nat) : List Bool :=
  (List.replicate n false).set i true

theorem shiftLeft_one_xor (x y : Nat) :
    (x ^^^ y) <<< 1 = (x <<< 1) ^^^ (y <<< 1) := by
  apply Nat.eq_of_testBit_eq
  intro i
  simp only [Nat.testBit_shiftLeft, Nat.testBit_xor]
  by_cases h : 1 ≤ i <;> simp [h]

theorem natXor_left_comm (a b c : Nat) :
    a ^^^ (b ^^^ c) = b ^^^ (a ^^^ c) := by
  rw [← Nat.xor_assoc, Nat.xor_comm a b, Nat.xor_assoc]

theorem natXor_cancel_left (a b : Nat) : a ^^^ (a ^^^ b) = b := by
  rw [← Nat.xor_assoc, Nat.xor_self, Nat.zero_xor]

theorem crcStep_linear (s t : Nat) (a b : Bool) :
    crcStep (s ^^^ t) (xor a b) = crcStep s a ^^^ crcStep t b := by
  unfold crcStep
  rw [Nat.testBit_xor, shiftLeft_one_xor]
  cases ha : s.testBit 13 <;> cases hb : t.testBit 13 <;>
    cases a <;> cases b <;>
    simp [Nat.xor_assoc, Nat.xor_comm, natXor_left_comm, natXor_cancel_left]

theorem crcFold_linear :
    ∀ (xs ys : List Bool), xs.length = ys.length → ∀ (s t : Nat),
      (zipXor xs ys).foldl crcStep (s ^^^ t) =
        (xs.foldl crcStep s) ^^^ (ys.foldl crcStep t) := by
  intro xs
  induction xs with
  | nil =>
    intro ys h s t
    cases ys with
    | nil => simp [zipXor]
    | cons y ys => simp at h
  | cons x xs ih =>
    intro ys h s t
    cases ys with
    | nil => simp at h
    | cons y ys =>
      simp only [zipXor, List.zipWith_cons_cons, List.foldl_cons]
      rw [crcStep_linear]
      exact ih ys (by simpa using h) _ _

theorem zipXor_replicate_false :
    ∀ (xs : List Bool), zipXor xs (List.replicate xs.length false) = xs := by
  intro xs
  induction xs with
  | nil => rfl
  | cons x xs ih =>
    simp only [List.length_cons, List.replicate_succ, zipXor,
      List.zipWith_cons_cons, Bool.xor_false]
    exact congrArg (x :: ·) ih

theorem flipBit_eq_zipXor_unitVec :
    ∀ (xs : List Bool) (i : Nat), i < xs.length →
      flipBit xs i = zipXor xs (unitVec xs.length i) := by
  intro xs
  induction xs with
  | nil => intro i h; simp at h
  | cons x xs ih =>
    intro i h
    cases i with
    | zero =>
      simp only [flipBit, List.set_cons_zero, List.getD_cons_zero,
        unitVec, List.length_cons, List.replicate_succ, zipXor,
        List.zipWith_cons_cons, Bool.xor_true]
      exact congrArg (_ :: ·) (zipXor_replicate_false xs).symm
    | succ j =>
      simp only [flipBit, List.set_cons_succ, List.getD_cons_succ,
        unitVec, List.length_cons, List.replicate_succ, zipXor,
        List.zipWith_cons_cons, Bool.xor_false]
      exact congrArg (x :: ·) (ih j (by simpa using h))

theorem crcCompute_flipBit (xs : List Bool) (i : Nat) (h : i < xs.length) :
    crcCompute (flipBit xs i) =
      crcCompute xs ^^^ crcCompute (unitVec xs.length i) := by
  have := crcFold_linear xs (unitVec xs.length i)
    (by simp [unitVec]) 0 0
  rw [flipBit_eq_zipXor_unitVec xs i h, crcCompute, crcCompute, crcCompute]
  simpa using this

set_option maxRecDepth 40000 in
theorem crc_unitVec_ne_zero :
    ∀ i < PAYLOAD_BITS, crcCompute (unitVec PAYLOAD_BITS i) ≠ 0 := by
  decide

/-- C2: for every payload bit sequence `P` of the required length,
verifying `P` against the checksum computed over `P` succeeds:
`verify(P, compute(P)) = true`, where `compute` and `verify` are the
pure checksum functions. -/
theorem crc_verify_compute (P : List Bool) (hP : P.length = PAYLOAD_BITS) :
    crcVerify P (crcCompute P) = true := by
  simp [crcVerify]

/-- Witness for C2 at the all-zero 77-bit payload. -/
theorem crc_verify_compute_witness :
    (List.replicate 77 false).length = PAYLOAD_BITS ∧
      crcVerify (List.replicate 77 false)
        (crcCompute (List.replicate 77 false)) = true :=
  ⟨by decide, crc_verify_compute (List.replicate 77 false) (by decide)⟩

/-- C3: for every 77-bit payload `P` and every bit position `i < 77`,
verifying the bit-flipped payload `flip(P, i)` against the checksum
computed over the original `P` fails — the deterministic form of the
spec's probability-`1 - 2^-14` statement, which for the
polynomial-based 14-bit checksum holds for every single-bit flip. -/
theorem crc_detects_single_flip (P : List Bool) (i : Nat)
    (hP : P.length = PAYLOAD_BITS) (hi : i < PAYLOAD_BITS) :
    crcVerify (flipBit P i) (crcCompute P) = false := by
  have hlt : i < P.length := by omega
  have hflip := crcCompute_flipBit P i hlt
  rw [hP] at hflip
  have hne : crcCompute (flipBit P i) ≠ crcCompute P := by
    rw [hflip]
    intro h
    have h0 : crcCompute P ^^^ (crcCompute P ^^^
        crcCompute (unitVec PAYLOAD_BITS i)) =
        crcCompute P ^^^ crcCompute P := congrArg (crcCompute P ^^^ ·) h
    rw [natXor_cancel_left, Nat.xor_self] at h0
    exact crc_unitVec_ne_zero i hi h0
  rw [crcVerify, beq_eq_false_iff_ne]
  exact hne

/-- Witness for C3: flipping bit 0 of the all-zero 77-bit payload is
detected. -/
theorem crc_detects_single_flip_witness :
    (List.replicate 77 false).length = PAYLOAD_BITS ∧ 0 < PAYLOAD_BITS ∧
      crcVerify (flipBit (List.replicate 77 false) 0)
        (crcCompute (List.replicate 77 false)) = false :=
  ⟨by decide, by decide,
    crc_detects_single_flip (List.replicate 77 false) 0 (by decide) (by decide)⟩

/-! ## Alphabet/Constants Table and Message Packer/Unpacker
(spec sections 2, 4.2; `ft8/message.h`)

Modelled from the spec: `ft8/message.h` and the alphabet tables are
absent from the tree.  The spec prescribes a closed set of message
variants (standard call-sign exchange, telemetry, free text), each
with "its own deterministic bit-layout rule using the Alphabet tables
(base-37/38 encodings for callsigns ...)", packed into a fixed 77-bit
payload with a 1-3 bit type tag embedded within it, and an unpacker
that is the exact inverse and fails with `MalformedPayloadError` when
decoded tag/field values fall outside the valid alphabet range. -/

/-- Modelled from the spec: the base-38 callsign alphabet table. -/
def callsignAlphabet : List Char :=
  " 0123456789ABCDEFGHIJKLMNOPQRSTUVWXYZ/".toList

/-- Modelled from the spec: the grid-locator letter alphabet table. -/
def gridLetterAlphabet : List Char := "ABCDEFGHIJKLMNOPQR".toList

/-- Modelled from the spec: the decimal digit alphabet table. -/
def digitAlphabet : List Char := "0123456789".toList

/-- Modelled from the spec: the base-42 free-text alphabet table. -/
def freeTextAlphabet : List Char :=
  " 0123456789ABCDEFGHIJKLMNOPQRSTUVWXYZ+-./?".toList

/-- Modelled from the spec: the closed set of message variants
(tagged union dispatched at pack/unpack time). -/
inductive Message where
  | standard (call1 call2 grid : List Char)
  | telemetry (data : Nat)
  | freeText (text : List Char)
deriving DecidableEq

/-- Modelled from the spec: unpacking fails with
`MalformedPayloadError` on out-of-range tag/field values. -/
inductive MessageError where
  | MalformedPayloadError
deriving DecidableEq

/-- A valid callsign field: five characters of the callsign alphabet. -/
def validCallsign (c : List Char) : Bool :=
  c.length == 5 && c.all fun ch => decide (ch ∈ callsignAlphabet)

/-- A valid grid locator: two grid letters followed by two digits. -/
def validGrid (g : List Char) : Bool :=
  match g with
  | [l1, l2, d1, d2] =>
    decide (l1 ∈ gridLetterAlphabet) && decide (l2 ∈ gridLetterAlphabet) &&
      decide (d1 ∈ digitAlphabet) && decide (d2 ∈ digitAlphabet)
  | _ => false

/-- Telemetry data field width in bits. -/
def TELEMETRY_BITS : Nat := 74

/-- Free text message length in characters. -/
def FREETEXT_LEN : Nat := 13

/-- A valid message of one of the supported variants. -/
def validMessage : Message → Bool
  | .standard c1 c2 g => validCallsign c1 && validCallsign c2 && validGrid g
  | .telemetry d => decide (d < 2 ^ TELEMETRY_BITS)
  | .freeText t =>
    t.length == FREETEXT_LEN && t.all fun ch => decide (ch ∈ freeTextAlphabet)

/-- Little-endian base-`b` packing of a digit list into a number. -/
def packBase (b : Nat) : List Nat → Nat
  | [] => 0
  | d :: ds => d + b * packBase b ds

/-- Little-endian base-`b` unpacking of `len` digits from a number. -/
def unpackBase (b : Nat) : Nat → Nat → List Nat
  | 0, _ => []
  | len + 1, n => n % b :: unpackBase b len (n / b)

/-- Pack a character list as a base-`alpha.length` number via the
alphabet table. -/
def packChars (alpha : List Char) (cs : List Char) : Nat :=
  packBase alpha.length (cs.map fun c => alpha.indexOf c)

/-- Unpack `len` characters from a base-`alpha.length` number via the
alphabet table. -/
def unpackChars (alpha : List Char) (len n : Nat) : List Char :=
  (unpackBase alpha.length len n).map fun d => alpha.getD d ' '

/-- Pack a grid locator (two base-18 letters, two digits) into a
number below `32400`. -/
def packGrid : List Char → Nat
  | [l1, l2, d1, d2] =>
    gridLetterAlphabet.indexOf l1 +
      18 * (gridLetterAlphabet.indexOf l2 +
        18 * (digitAlphabet.indexOf d1 + 10 * digitAlphabet.indexOf d2))
  | _ => 0

/-- Unpack a grid locator from a number below `32400`. -/
def unpackGrid (v : Nat) : List Char :=
  [gridLetterAlphabet.getD (v % 18) 'A',
   gridLetterAlphabet.getD (v / 18 % 18) 'A',
   digitAlphabet.getD (v / 324 % 10) '0',
   digitAlphabet.getD (v / 3240 % 10) '0']

/-- Field modulus of one packed callsign (27 bits, `38^5 < 2^27`). -/
def CALL_FIELD : Nat := 2 ^ 27

/-- Number of valid packed callsign values. -/
def CALL_RANGE : Nat := 38 ^ 5

/-- Number of valid packed grid values. -/
def GRID_RANGE : Nat := 32400

/-- Field modulus of the 74-bit message body below the type tag. -/
def BODY_FIELD : Nat := 2 ^ 74

/-- Number of valid packed free-text values. -/
def FREETEXT_RANGE : Nat := 42 ^ 13

/-- Modelled from the spec: the missing `ft8/message.h` packer.  Each
variant is laid out deterministically in the 77-bit payload: a 3-bit
type tag above bit 74 (0 free text, 1 standard, 2 telemetry), then the
variant body: for standard messages two 27-bit base-38 callsigns and a
15-bit grid field, for telemetry 74 raw bits, for free text a 13-character
base-42 number. -/
def packMessage : Message → Nat
  | .standard c1 c2 g =>
    1 * BODY_FIELD + (packChars callsignAlphabet c1 +
      CALL_FIELD * (packChars callsignAlphabet c2 + CALL_FIELD * packGrid g))
  | .telemetry d => 2 * BODY_FIELD + d
  | .freeText t => 0 * BODY_FIELD + packChars freeTextAlphabet t

/-- Modelled from the spec: the missing `ft8/message.h` unpacker, the
exact inverse of `packMessage`; fails with `MalformedPayloadError`
when the decoded tag or a decoded field value falls outside the valid
alphabet range. -/
def unpackMessage (n : Nat) : Except MessageError Message :=
  let tag := n / BODY_FIELD
  let body := n % BODY_FIELD
  if tag = 1 then
    let v1 := body % CALL_FIELD
    let v2 := body / CALL_FIELD % CALL_FIELD
    let vg := body / (CALL_FIELD * CALL_FIELD)
    if v1 < CALL_RANGE ∧ v2 < CALL_RANGE ∧ vg < GRID_RANGE then
      .ok (.standard (unpackChars callsignAlphabet 5 v1)
        (unpackChars callsignAlphabet 5 v2) (unpackGrid vg))
    else .error .MalformedPayloadError
  else if tag = 2 then
    .ok (.telemetry body)
  else if tag = 0 then
    if body < FREETEXT_RANGE then
      .ok (.freeText (unpackChars freeTextAlphabet FREETEXT_LEN body))
    else .error .MalformedPayloadError
  else .error .MalformedPayloadError

theorem packBase_lt (b : Nat) :
    ∀ (ds : List Nat), (∀ d ∈ ds, d < b) → packBase b ds < b ^ ds.length := by
  intro ds
  induction ds with
  | nil => intro _; simp [packBase]
  | cons d ds ih =>
    intro h
    have hd : d < b := h d (by simp)
    have hrest : packBase b ds + 1 ≤ b ^ ds.length :=
      ih (fun x hx => h x (by simp [hx]))
    calc packBase b (d :: ds) = d + b * packBase b ds := rfl
      _ < b + b * packBase b ds := by omega
      _ = b * (packBase b ds + 1) := by ring
      _ ≤ b * b ^ ds.length := Nat.mul_le_mul_left b hrest
      _ = b ^ (d :: ds).length := by rw [List.length_cons]; ring

theorem unpackBase_packBase (b : Nat) (hb : 0 < b) :
    ∀ (ds : List Nat), (∀ d ∈ ds, d < b) →
      unpackBase b ds.length (packBase b ds) = ds := by
  intro ds
  induction ds with
  | nil => intro _; rfl
  | cons d ds ih =>
    intro h
    have hd : d < b := h d (by simp)
    simp only [List.length_cons, unpackBase, packBase]
    have hm : (d + b * packBase b ds) % b = d := by
      rw [Nat.add_mul_mod_self_left, Nat.mod_eq_of_lt hd]
    have hdiv : (d + b * packBase b ds) / b = packBase b ds := by
      rw [Nat.add_mul_div_left _ _ hb, Nat.div_eq_of_lt hd, Nat.zero_add]
    rw [hm, hdiv, ih (fun x hx => h x (by simp [hx]))]

theorem packChars_lt (alpha : List Char) (cs : List Char)
    (h : ∀ c ∈ cs, c ∈ alpha) :
    packChars alpha cs < alpha.length ^ cs.length := by
  have := packBase_lt alpha.length (cs.map fun c => alpha.indexOf c)
    (by
      intro d hd
      obtain ⟨c, hc, rfl⟩ := List.mem_map.mp hd
      exact List.indexOf_lt_length.mpr (h c hc))
  simpa [packChars] using this

theorem unpackChars_packChars (alpha : List Char) (hpos : 0 < alpha.length)
    (cs : List Char) (h : ∀ c ∈ cs, c ∈ alpha) :
    unpackChars alpha cs.length (packChars alpha cs) = cs := by
  unfold unpackChars packChars
  have hlen : cs.length = (cs.map fun c => alpha.indexOf c).length := by simp
  rw [hlen, unpackBase_packBase alpha.length hpos _
    (by
      intro d hd
      obtain ⟨c, hc, rfl⟩ := List.mem_map.mp hd
      exact List.indexOf_lt_length.mpr (h c hc))]
  rw [List.map_map]
  conv_rhs => rw [← List.map_id cs]
  apply List.map_congr_left
  intro c hc
  have hlt : alpha.indexOf c < alpha.length :=
    List.indexOf_lt_length.mpr (h c hc)
  simp only [Function.comp_apply, List.getD_eq_getElem _ _ hlt,
    List.getElem_indexOf hlt, id]

theorem unpackGrid_packGrid (g : List Char) (h : validGrid g = true) :
    packGrid g < GRID_RANGE ∧ unpackGrid (packGrid g) = g := by
  match g with
  | [l1, l2, d1, d2] =>
    simp only [validGrid, Bool.and_eq_true, decide_eq_true_eq] at h
    obtain ⟨⟨⟨hl1, hl2⟩, hd1⟩, hd2⟩ := h
    have e18 : gridLetterAlphabet.length = 18 := rfl
    have e10 : digitAlphabet.length = 10 := rfl
    have bl1 : gridLetterAlphabet.indexOf l1 < 18 :=
      e18 ▸ List.indexOf_lt_length.mpr hl1
    have bl2 : gridLetterAlphabet.indexOf l2 < 18 :=
      e18 ▸ List.indexOf_lt_length.mpr hl2
    have bd1 : digitAlphabet.indexOf d1 < 10 :=
      e10 ▸ List.indexOf_lt_length.mpr hd1
    have bd2 : digitAlphabet.indexOf d2 < 10 :=
      e10 ▸ List.indexOf_lt_length.mpr hd2
    set i1 := gridLetterAlphabet.indexOf l1
    set i2 := gridLetterAlphabet.indexOf l2
    set j1 := digitAlphabet.indexOf d1
    set j2 := digitAlphabet.indexOf d2
    have hv : packGrid [l1, l2, d1, d2] = i1 + 18 * (i2 + 18 * (j1 + 10 * j2)) :=
      rfl
    constructor
    · rw [hv, GRID_RANGE]; omega
    · have x1 : (i1 + 18 * (i2 + 18 * (j1 + 10 * j2))) % 18 = i1 := by omega
      have x2 : (i1 + 18 * (i2 + 18 * (j1 + 10 * j2))) / 18 % 18 = i2 := by
        omega
      have x3 : (i1 + 18 * (i2 + 18 * (j1 + 10 * j2))) / 324 % 10 = j1 := by
        omega
      have x4 : (i1 + 18 * (i2 + 18 * (j1 + 10 * j2))) / 3240 % 10 = j2 := by
        omega
      rw [hv, unpackGrid, x1, x2, x3, x4]
      have g1 : gridLetterAlphabet.getD i1 'A' = l1 := by
        rw [List.getD_eq_getElem _ _ (e18 ▸ bl1),
          List.getElem_indexOf (e18 ▸ bl1)]
      have g2 : gridLetterAlphabet.getD i2 'A' = l2 := by
        rw [List.getD_eq_getElem _ _ (e18 ▸ bl2),
          List.getElem_indexOf (e18 ▸ bl2)]
      have g3 : digitAlphabet.getD j1 '0' = d1 := by
        rw [List.getD_eq_getElem _ _ (e10 ▸ bd1),
          List.getElem_indexOf (e10 ▸ bd1)]
      have g4 : digitAlphabet.getD j2 '0' = d2 := by
        rw [List.getD_eq_getElem _ _ (e10 ▸ bd2),
          List.getElem_indexOf (e10 ▸ bd2)]
      rw [g1, g2, g3, g4]

theorem unpackMessage_standard_eq (a b gv : Nat) (ha : a < CALL_RANGE)
    (hb : b < CALL_RANGE) (hg : gv < GRID_RANGE) :
    unpackMessage (1 * BODY_FIELD + (a + CALL_FIELD * (b + CALL_FIELD * gv))) =
      Except.ok (.standard (unpackChars callsignAlphabet 5 a)
        (unpackChars callsignAlphabet 5 b) (unpackGrid gv)) := by
  rw [CALL_RANGE, show (38 : Nat) ^ 5 = 79235168 from by norm_num] at ha hb
  rw [GRID_RANGE] at hg
  have eb : BODY_FIELD = 2 ^ 74 := rfl
  have ec : CALL_FIELD = 2 ^ 27 := rfl
  have h1 : (1 * BODY_FIELD + (a + CALL_FIELD * (b + CALL_FIELD * gv))) /
      BODY_FIELD = 1 := by
    rw [eb, ec]; omega
  have h2 : (1 * BODY_FIELD + (a + CALL_FIELD * (b + CALL_FIELD * gv))) %
      BODY_FIELD = a + CALL_FIELD * (b + CALL_FIELD * gv) := by
    rw [eb, ec]; omega
  have h3 : (a + CALL_FIELD * (b + CALL_FIELD * gv)) % CALL_FIELD = a := by
    rw [ec]; omega
  have h4 : (a + CALL_FIELD * (b + CALL_FIELD * gv)) / CALL_FIELD %
      CALL_FIELD = b := by
    rw [ec]; omega
  have h5 : (a + CALL_FIELD * (b + CALL_FIELD * gv)) /
      (CALL_FIELD * CALL_FIELD) = gv := by
    rw [ec]; omega
  have hcond : a < CALL_RANGE ∧ b < CALL_RANGE ∧ gv < GRID_RANGE :=
    ⟨by rw [CALL_RANGE]; norm_num; omega,
     by rw [CALL_RANGE]; norm_num; omega, by rw [GRID_RANGE]; omega⟩
  rw [unpackMessage]
  simp only [h1, h2, h3, h4, h5]
  norm_num
  intro himp
  exact absurd (himp hcond.1 hcond.2.1) (Nat.not_le.mpr hcond.2.2)

theorem unpackMessage_telemetry_eq (d : Nat) (hd : d < 2 ^ TELEMETRY_BITS) :
    unpackMessage (2 * BODY_FIELD + d) = Except.ok (.telemetry d) := by
  rw [TELEMETRY_BITS] at hd
  have eb : BODY_FIELD = 2 ^ 74 := rfl
  have h1 : (2 * BODY_FIELD + d) / BODY_FIELD = 2 := by rw [eb]; omega
  have h2 : (2 * BODY_FIELD + d) % BODY_FIELD = d := by rw [eb]; omega
  rw [unpackMessage]
  simp only [h1, h2]
  norm_num

theorem unpackMessage_freeText_eq (v : Nat) (hv : v < FREETEXT_RANGE) :
    unpackMessage (0 * BODY_FIELD + v) =
      Except.ok (.freeText (unpackChars freeTextAlphabet FREETEXT_LEN v)) := by
  rw [FREETEXT_RANGE, show (42 : Nat) ^ 13 = 1265437718438866624512 from by
    norm_num] at hv
  have eb : BODY_FIELD = 2 ^ 74 := rfl
  have h1 : (0 * BODY_FIELD + v) / BODY_FIELD = 0 := by rw [eb]; omega
  have h2 : (0 * BODY_FIELD + v) % BODY_FIELD = v := by rw [eb]; omega
  have hcond : v < FREETEXT_RANGE := by rw [FREETEXT_RANGE]; norm_num; omega
  rw [unpackMessage]
  simp only [h1, h2]
  norm_num
  intro hle
  exact absurd hle (Nat.not_le.mpr hcond)

/-- C1: for every valid message `M` of each supported variant
(standard call-sign exchange, telemetry, free text), the packed
payload fits in 77 bits and unpacking it yields `M` again:
`Unpack(Pack(M)) = M`. -/
theorem unpack_pack_roundtrip (M : Message) (h : validMessage M = true) :
    packMessage M < 2 ^ PAYLOAD_BITS ∧
      unpackMessage (packMessage M) = Except.ok M := by
  cases M with
  | standard c1 c2 g =>
    simp only [validMessage, Bool.and_eq_true] at h
    obtain ⟨⟨h1, h2⟩, hg⟩ := h
    simp only [validCallsign, Bool.and_eq_true, beq_iff_eq,
      List.all_eq_true, decide_eq_true_eq] at h1 h2
    obtain ⟨hl1, hm1⟩ := h1
    obtain ⟨hl2, hm2⟩ := h2
    have e38 : callsignAlphabet.length = 38 := rfl
    have ha : packChars callsignAlphabet c1 < CALL_RANGE := by
      have := packChars_lt callsignAlphabet c1 hm1
      rw [e38, hl1] at this
      rw [CALL_RANGE]; exact this
    have hb : packChars callsignAlphabet c2 < CALL_RANGE := by
      have := packChars_lt callsignAlphabet c2 hm2
      rw [e38, hl2] at this
      rw [CALL_RANGE]; exact this
    obtain ⟨hgf, hgr⟩ := unpackGrid_packGrid g hg
    have hu1 : unpackChars callsignAlphabet 5
        (packChars callsignAlphabet c1) = c1 := by
      have := unpackChars_packChars callsignAlphabet (by rw [e38]; omega) c1 hm1
      rwa [hl1] at this
    have hu2 : unpackChars callsignAlphabet 5
        (packChars callsignAlphabet c2) = c2 := by
      have := unpackChars_packChars callsignAlphabet (by rw [e38]; omega) c2 hm2
      rwa [hl2] at this
    refine ⟨?_, ?_⟩
    · rw [packMessage, PAYLOAD_BITS]
      rw [CALL_RANGE, show (38 : Nat) ^ 5 = 79235168 from by norm_num]
        at ha hb
      rw [GRID_RANGE] at hgf
      rw [show BODY_FIELD = 2 ^ 74 from rfl, show CALL_FIELD = 2 ^ 27 from rfl]
      omega
    · rw [packMessage, unpackMessage_standard_eq _ _ _ ha hb hgf, hu1, hu2, hgr]
  | telemetry d =>
    simp only [validMessage, decide_eq_true_eq] at h
    refine ⟨?_, ?_⟩
    · rw [packMessage, PAYLOAD_BITS, show BODY_FIELD = 2 ^ 74 from rfl]
      rw [TELEMETRY_BITS] at h
      omega
    · rw [packMessage]
      exact unpackMessage_telemetry_eq d h
  | freeText t =>
    simp only [validMessage, Bool.and_eq_true, beq_iff_eq,
      List.all_eq_true, decide_eq_true_eq] at h
    obtain ⟨hlen, hmem⟩ := h
    have e42 : freeTextAlphabet.length = 42 := rfl
    have hv : packChars freeTextAlphabet t < FREETEXT_RANGE := by
      have := packChars_lt freeTextAlphabet t hmem
      rw [e42, hlen, show FREETEXT_LEN = 13 from rfl] at this
      rw [FREETEXT_RANGE]; exact this
    have hu : unpackChars freeTextAlphabet FREETEXT_LEN
        (packChars freeTextAlphabet t) = t := by
      have := unpackChars_packChars freeTextAlphabet (by rw [e42]; omega) t hmem
      rwa [hlen] at this
    refine ⟨?_, ?_⟩
    · rw [packMessage, PAYLOAD_BITS, show BODY_FIELD = 2 ^ 74 from rfl]
      rw [FREETEXT_RANGE,
        show (42 : Nat) ^ 13 = 1265437718438866624512 from by norm_num] at hv
      omega
    · rw [packMessage, unpackMessage_freeText_eq _ hv, hu]

/-- Witness for C1 at the standard message `K1ABC W9XYZ FN20`. -/
theorem unpack_pack_roundtrip_witness :
    validMessage (.standard "K1ABC".toList "W9XYZ".toList "FN20".toList) =
      true ∧
    unpackMessage (packMessage
        (.standard "K1ABC".toList "W9XYZ".toList "FN20".toList)) =
      Except.ok (.standard "K1ABC".toList "W9XYZ".toList "FN20".toList) :=
  ⟨by decide,
   (unpack_pack_roundtrip
     (.standard "K1ABC".toList "W9XYZ".toList "FN20".toList) (by decide)).2⟩

/-! ## Forward-Error-Correction Codec
(spec 4.3; `ft8/encode.h`, `ft8/ldpc.h`)

Modelled from the spec: `ft8/encode.h` and `ft8/ldpc.h` are absent
from the tree.  Encoding is "deterministic matrix multiply (mod 2) of
the 91-bit payload+checksum against a fixed generator matrix,
producing 83 parity bits appended to form the 174-bit codeword"; the
code is systematic, so the parity-check structure is the matrix
`[A | I]` whose row `j` constrains generator row `j` of the message
bits together with parity bit `j`.  The decoder runs iterative
min-sum belief propagation over that structure for a bounded number
of iterations; each iteration derives a hard-decision codeword from
current bit signs, tests it against all parity constraints, and
succeeds the first iteration all constraints hold, else updates the
check-to-variable messages; it fails with `FecNotConvergedError` when
the budget is exhausted. -/

/-- Number of message (payload + checksum) bits of a codeword. -/
def MSG_BITS : Nat := 91

/-- Number of parity bits of a codeword. -/
def PARITY_BITS : Nat := 83

/-- Number of bits of a codeword. -/
def CODEWORD_BITS : Nat := 174

/-- A fixed generator matrix: 83 parity rows over 91 message bits. -/
abbrev GenMatrix := Fin 83 → Fin 91 → Bool

/-- Mod-2 dot product of generator row `j` with the message bits. -/
def dotRow (G : GenMatrix) (j : Fin 83) (m : Fin 91 → Bool) : Bool :=
  (List.finRange 91).foldl (fun acc i => xor acc (G j i && m i)) false

/-- Modelled from the spec: the missing `ft8/encode.h`.  Systematic
encode: the first 91 codeword bits are the message, the last 83 are
the mod-2 generator products. -/
def ldpcEncode (G : GenMatrix) (m : Fin 91 → Bool) : Fin 174 → Bool :=
  fun k =>
    if h : k.val < 91 then m ⟨k.val, h⟩
    else dotRow G ⟨k.val - 91, by have := k.isLt; omega⟩ m

/-- Parity-check constraint `j` of the FEC structure `[A | I]`: the
mod-2 sum of generator row `j` over the first 91 codeword bits and of
parity bit `j`; a valid codeword makes every row `false`. -/
def checkRow (G : GenMatrix) (j : Fin 83) (c : Fin 174 → Bool) : Bool :=
  xor
    ((List.finRange 91).foldl
      (fun acc i => xor acc (G j i && c (Fin.castLE (by omega) i))) false)
    (c ⟨91 + j.val, by have := j.isLt; omega⟩)

/-- All parity-check constraints hold for codeword `c`. -/
def checksOk (G : GenMatrix) (c : Fin 174 → Bool) : Bool :=
  (List.finRange 83).all fun j => ! checkRow G j c

theorem foldl_congr_mem {α β : Type} (l : List α) (f g : β → α → β) :
    ∀ (b : β), (∀ (b' : β), ∀ a ∈ l, f b' a = g b' a) →
      l.foldl f b = l.foldl g b := by
  induction l with
  | nil => intro b _; rfl
  | cons x xs ih =>
    intro b h
    simp only [List.foldl_cons]
    rw [h b x (by simp)]
    exact ih _ (fun b' a ha => h b' a (by simp [ha]))

theorem ldpcEncode_message (G : GenMatrix) (m : Fin 91 → Bool) (i : Fin 91) :
    ldpcEncode G m (Fin.castLE (by omega) i) = m i := by
  unfold ldpcEncode
  rw [dif_pos (show (Fin.castLE (by omega : (91:Nat) ≤ 174) i).val < 91 from
    i.isLt)]
  exact congrArg m (Fin.ext rfl)

theorem ldpcEncode_parity (G : GenMatrix) (m : Fin 91 → Bool) (j : Fin 83) :
    ldpcEncode G m ⟨91 + j.val, by have := j.isLt; omega⟩ = dotRow G j m := by
  unfold ldpcEncode
  rw [dif_neg (show ¬(91 + j.val < 91) from by omega)]
  congr 1
  exact Fin.ext (by simp)

theorem checkRow_encode (G : GenMatrix) (m : Fin 91 → Bool) (j : Fin 83) :
    checkRow G j (ldpcEncode G m) = false := by
  unfold checkRow
  have hfold : (List.finRange 91).foldl
      (fun acc i => xor acc (G j i && ldpcEncode G m (Fin.castLE (by omega) i)))
      false = dotRow G j m := by
    unfold dotRow
    apply foldl_congr_mem
    intro b' i _
    rw [ldpcEncode_message]
  rw [hfold, ldpcEncode_parity, Bool.xor_self]

theorem checksOk_encode (G : GenMatrix) (m : Fin 91 → Bool) :
    checksOk G (ldpcEncode G m) = true := by
  unfold checksOk
  rw [List.all_eq_true]
  intro j _
  rw [checkRow_encode, Bool.not_false]

/-- C4: for every 91-bit payload+checksum input and every fixed
generator matrix, FEC encode is the deterministic mod-2 matrix
multiply that keeps the 91 message bits in place and appends exactly
83 parity bits (the generator row products) to form the 174-bit
codeword — it is a total function with no failure modes — and the
codeword it produces satisfies all parity-check constraints of the
FEC structure. -/
theorem ldpc_encode_correct (G : GenMatrix) (m : Fin 91 → Bool) :
    (∀ i : Fin 91, ldpcEncode G m (Fin.castLE (by omega) i) = m i) ∧
    (∀ j : Fin 83,
      ldpcEncode G m ⟨91 + j.val, by have := j.isLt; omega⟩ = dotRow G j m) ∧
    checksOk G (ldpcEncode G m) = true :=
  ⟨fun i => ldpcEncode_message G m i,
   fun j => ldpcEncode_parity G m j,
   checksOk_encode G m⟩

/-- A 174-entry log-likelihood-ratio vector: sign is the likely bit
value (negative is `1`), magnitude the confidence. -/
abbrev LLRVec := Fin 174 → Int

/-- Check-to-variable message state of the belief-propagation
decoder. -/
abbrev TovMessages := Fin 83 → Fin 174 → Int

/-- Whether codeword bit `k` participates in parity check `j` of the
structure `[A | I]`. -/
def inCheck (G : GenMatrix) (j : Fin 83) (k : Fin 174) : Bool :=
  if h : k.val < 91 then G j ⟨k.val, h⟩ else k.val == 91 + j.val

/-- Initial (zero) check-to-variable messages. -/
def tovInit : TovMessages := fun _ _ => 0

/-- Current soft estimate of bit `k`: the channel LLR plus all
incoming check-to-variable messages. -/
def belief (llr : LLRVec) (tov : TovMessages) (k : Fin 174) : Int :=
  llr k + (List.finRange 83).foldl (fun acc j => acc + tov j k) 0

/-- Hard-decision bit from the sign of the current soft estimate. -/
def hardDecision (bel : Fin 174 → Int) (k : Fin 174) : Bool :=
  decide (bel k < 0)

/-- The codeword bits participating in check `j`. -/
def checkVars (G : GenMatrix) (j : Fin 83) : List (Fin 174) :=
  (List.finRange 174).filter (fun k => inCheck G j k)

/-- Modelled from the spec: the missing `ft8/ldpc.h` min-sum message
update.  The new message from check `j` to variable `k` combines the
extrinsic estimates of the other variables of the check: the product
of their signs times the minimum of their magnitudes. -/
def minSumUpdate (G : GenMatrix) (llr : LLRVec) (tov : TovMessages) :
    TovMessages :=
  fun j k =>
    if inCheck G j k then
      let others := (checkVars G j).filter (fun n => n != k)
      let msgs := others.map (fun n => belief llr tov n - tov j n)
      let sgn : Int := msgs.foldl (fun a x => if x < 0 then -a else a) 1
      let mag : Int :=
        match msgs.map (fun x => if x < 0 then -x else x) with
        | [] => 0
        | y :: ys => ys.foldl min y
      sgn * mag
    else 0

/-- Check-to-variable message state after `n` update iterations. -/
def tovIter (G : GenMatrix) (llr : LLRVec) : Nat → TovMessages
  | 0 => tovInit
  | n + 1 => minSumUpdate G llr (tovIter G llr n)

/-- Modelled from the spec: FEC decode non-convergence is an expected,
non-fatal outcome. -/
inductive FecError where
  | FecNotConvergedError
deriving DecidableEq

/-- Modelled from the spec: the missing `ft8/ldpc.h` iterative
decoder loop.  Each iteration derives the hard-decision codeword from
the current soft estimates and tests it against all parity
constraints; it succeeds the first iteration all constraints are
satisfied and otherwise updates the messages, failing with
`FecNotConvergedError` when the budget is exhausted. -/
def bpLoop (G : GenMatrix) (llr : LLRVec) :
    Nat → Nat → TovMessages → Except FecError ((Fin 174 → Bool) × Nat)
  | 0, _, _ => .error .FecNotConvergedError
  | budget + 1, iter, tov =>
    let c := hardDecision (belief llr tov)
    if checksOk G c then .ok (c, iter)
    else bpLoop G llr budget (iter + 1) (minSumUpdate G llr tov)

/-- FEC decode: run the belief-propagation loop for up to `budget`
iterations, starting at iteration 1 with zero messages. -/
def ldpcDecode (G : GenMatrix) (llr : LLRVec) (budget : Nat) :
    Except FecError ((Fin 174 → Bool) × Nat) :=
  bpLoop G llr budget 1 tovInit

/-- Iteration-count-derived confidence score of a converged decode. -/
def fecConfidence (budget iters : Nat) : Nat := budget + 1 - iters

/-- The noiseless LLR vector of a codeword: bit 0 maps to `+L`,
bit 1 to `-L`. -/
def noiselessLLR (L : Int) (c : Fin 174 → Bool) : LLRVec :=
  fun k => if c k then -L else L

theorem belief_tovInit (llr : LLRVec) : belief llr tovInit = llr := by
  funext k
  have h : ∀ (l : List (Fin 83)) (a : Int),
      l.foldl (fun acc j => acc + tovInit j k) a = a := by
    intro l
    induction l with
    | nil => intro a; rfl
    | cons x xs ih =>
      intro a
      rw [List.foldl_cons, show a + tovInit x k = a from by
        simp [tovInit]]
      exact ih a
  simp only [belief, h, Int.add_zero]

theorem hardDecision_noiseless (L : Int) (hL : 0 < L) (c : Fin 174 → Bool) :
    hardDecision (noiselessLLR L c) = c := by
  funext k
  unfold hardDecision noiselessLLR
  cases hc : c k <;> simp <;> omega

/-- C5: for every valid 91-bit input and fixed generator matrix,
running FEC decode on the noiseless LLR vector derived from the
encoded 174-bit codeword (bit 0 mapped to `+L`, bit 1 to `-L`, for
any fixed `L > 0`) converges to the original codeword in iteration 1,
for any nonzero iteration budget. -/
theorem fec_noiseless_roundtrip (G : GenMatrix) (m : Fin 91 → Bool)
    (L : Int) (budget : Nat) (hL : 0 < L) (hb : 1 ≤ budget) :
    ldpcDecode G (noiselessLLR L (ldpcEncode G m)) budget =
      Except.ok (ldpcEncode G m, 1) := by
  obtain ⟨b, rfl⟩ : ∃ b, budget = b + 1 := ⟨budget - 1, by omega⟩
  show bpLoop G _ (b + 1) 1 tovInit = _
  rw [bpLoop]
  rw [belief_tovInit, hardDecision_noiseless L hL]
  rw [if_pos (checksOk_encode G m)]

/-- Witness for C5: the zero generator matrix, the zero message,
`L = 1` and budget 1. -/
theorem fec_noiseless_roundtrip_witness :
    ldpcDecode (fun _ _ => false)
        (noiselessLLR 1 (ldpcEncode (fun _ _ => false) (fun _ => false))) 1 =
      Except.ok (ldpcEncode (fun _ _ => false) (fun _ => false), 1) :=
  fec_noiseless_roundtrip (fun _ _ => false) (fun _ => false) 1 1
    (by decide) (by decide)

theorem bpLoop_spec (G : GenMatrix) (llr : LLRVec) :
    ∀ (b s : Nat),
      (bpLoop G llr b (s + 1) (tovIter G llr s) =
          Except.error .FecNotConvergedError ↔
        ∀ k, k < b →
          checksOk G (hardDecision (belief llr (tovIter G llr (s + k)))) =
            false) ∧
      (∀ c iters,
        bpLoop G llr b (s + 1) (tovIter G llr s) = Except.ok (c, iters) →
          s + 1 ≤ iters ∧ iters ≤ s + b ∧
          c = hardDecision (belief llr (tovIter G llr (iters - 1))) ∧
          checksOk G c = true ∧
          ∀ k, s ≤ k → k < iters - 1 →
            checksOk G (hardDecision (belief llr (tovIter G llr k))) =
              false) := by
  intro b
  induction b with
  | zero =>
    intro s
    refine ⟨⟨fun _ k hk => absurd hk (by omega), fun _ => rfl⟩, ?_⟩
    intro c iters h
    exact Except.noConfusion h
  | succ b ih =>
    intro s
    have heq : bpLoop G llr (b + 1) (s + 1) (tovIter G llr s) =
        if checksOk G (hardDecision (belief llr (tovIter G llr s))) then
          Except.ok (hardDecision (belief llr (tovIter G llr s)), s + 1)
        else bpLoop G llr b (s + 2) (tovIter G llr (s + 1)) := by
      rw [bpLoop]
      rfl
    by_cases hc : checksOk G (hardDecision (belief llr (tovIter G llr s))) =
        true
    · rw [heq, if_pos hc]
      constructor
      · constructor
        · intro h; exact Except.noConfusion h
        · intro hall
          have h0 := hall 0 (by omega)
          rw [Nat.add_zero, hc] at h0
          exact Bool.noConfusion h0
      · intro c iters h
        rw [Except.ok.injEq, Prod.mk.injEq] at h
        obtain ⟨h1, h2⟩ := h
        subst h1; subst h2
        refine ⟨by omega, by omega, ?_, hc, ?_⟩
        · rw [show s + 1 - 1 = s from by omega]
        · intro k hks hki
          omega
    · have hc' : checksOk G (hardDecision (belief llr (tovIter G llr s))) =
          false := by
        simpa using hc
      rw [heq, if_neg hc]
      obtain ⟨ihErr, ihOk⟩ := ih (s + 1)
      constructor
      · rw [ihErr]
        constructor
        · intro hall k hk
          cases k with
          | zero => rw [Nat.add_zero]; exact hc'
          | succ k' =>
            have h' := hall k' (by omega)
            rw [show s + 1 + k' = s + (k' + 1) from by omega] at h'
            exact h'
        · intro hall k hk
          have h' := hall (k + 1) (by omega)
          rw [show s + (k + 1) = s + 1 + k from by omega] at h'
          exact h'
      · intro c iters h
        obtain ⟨o1, o2, o3, o4, o5⟩ := ihOk c iters h
        refine ⟨by omega, by omega, o3, o4, ?_⟩
        intro k hks hki
        rcases Nat.eq_or_lt_of_le hks with heq2 | hlt
        · rw [← heq2]; exact hc'
        · exact o5 k (by omega) hki

/-- C6: for every 174-entry LLR vector, generator matrix and
iteration budget, FEC decode succeeds exactly at the first iteration
whose hard-decision codeword satisfies all parity constraints,
returning that codeword and an iteration count within the budget
(from which the confidence score is derived), and fails with
`FecNotConvergedError` if and only if the bounded iteration budget is
exhausted without all parity constraints being satisfied; in
particular it always terminates within the budget. -/
theorem ldpc_decode_spec (G : GenMatrix) (llr : LLRVec) (budget : Nat) :
    (ldpcDecode G llr budget = Except.error .FecNotConvergedError ↔
      ∀ k, k < budget →
        checksOk G (hardDecision (belief llr (tovIter G llr k))) = false) ∧
    (∀ c iters, ldpcDecode G llr budget = Except.ok (c, iters) →
      1 ≤ iters ∧ iters ≤ budget ∧
      c = hardDecision (belief llr (tovIter G llr (iters - 1))) ∧
      checksOk G c = true ∧
      ∀ k, k < iters - 1 →
        checksOk G (hardDecision (belief llr (tovIter G llr k))) = false) := by
  obtain ⟨herr, hok⟩ := bpLoop_spec G llr budget 0
  simp only [Nat.zero_add] at herr hok
  constructor
  · exact herr
  · intro c iters h
    obtain ⟨o1, o2, o3, o4, o5⟩ := hok c iters h
    exact ⟨o1, o2, o3, o4, fun k hk => o5 k (by omega) hk⟩

set_option maxRecDepth 200000 in
/-- Witness for C6: with the zero generator matrix and an LLR vector
whose bit 91 is negative, the parity bit of check 0 is set, no
iteration converges, and a budget of 1 is exhausted. -/
theorem ldpc_decode_spec_witness :
    ldpcDecode (fun _ _ => false)
        (fun k => if k.val = 91 then -1 else 1) 1 =
      Except.error .FecNotConvergedError :=
  (ldpc_decode_spec (fun _ _ => false)
    (fun k => if k.val = 91 then -1 else 1) 1).1.mpr (by decide)

/-! ## Synchronizer/Monitor (spec 4.5; `common/monitor.h`)

Modelled from the spec: `common/monitor.h` is absent from the tree.
The synchronizer searches a bounded range of time and frequency
offsets over the spectrogram (offsets measured in half-steps and
half-bins: two offsets per time-step and per frequency-bin), scores
each position by correlating the expected synchronization-block tone
pattern with the observed magnitudes, keeps candidates whose score
reaches the threshold, merges near-duplicates within one time-step
and one frequency-bin keeping the higher score, and ranks the result
by score descending. -/

/-- A hypothesized transmission position with its sync score.
Offsets are in half-step/half-bin units. -/
structure Candidate where
  timeOffset : Int
  freqOffset : Int
  score : Int
deriving DecidableEq

/-- Bounded search ranges and score threshold of the synchronizer. -/
structure SyncConfig where
  timeMin : Int
  timeMax : Int
  freqMin : Int
  freqMax : Int
  threshold : Int
deriving DecidableEq

/-- A time-frequency magnitude map, indexed in half-step/half-bin
sub-units, the shared read-only substrate of one decode session. -/
abbrev Spectrogram := Int → Int → Int

/-- Offsets per time-step (and per frequency-bin): the search grid is
twice as fine as the symbol grid. -/
def OSR : Nat := 2

/-- The 7-tone synchronization (Costas) pattern of one sync block. -/
def costas : List Nat := [3, 1, 4, 0, 6, 5, 2]

/-- Absolute symbol positions of the three sync blocks. -/
def syncBlockStarts : List Nat := [0, 36, 72]

/-- Correlation score of the expected sync-block tone pattern against
the observed magnitudes at time offset `t`, frequency offset `f`. -/
def syncScore (sg : Spectrogram) (t f : Int) : Int :=
  (syncBlockStarts.map fun (b : Nat) =>
    ((List.range 7).map fun (s : Nat) =>
      sg (t + 2 * ((b : Int) + (s : Int)))
        (f + 2 * (costas.getD s 0 : Int))).sum).sum

/-- The inclusive list of offsets from `lo` to `hi`. -/
def offsetRange (lo hi : Int) : List Int :=
  (List.range (hi + 1 - lo).toNat).map fun k => lo + (k : Int)

/-- Every grid position of the bounded search range, scored. -/
def rawCandidates (sg : Spectrogram) (cfg : SyncConfig) : List Candidate :=
  (offsetRange cfg.timeMin cfg.timeMax).flatMap fun t =>
    (offsetRange cfg.freqMin cfg.freqMax).map fun f =>
      { timeOffset := t, freqOffset := f, score := syncScore sg t f }

/-- The scored grid positions whose score reaches the threshold. -/
def aboveThreshold (sg : Spectrogram) (cfg : SyncConfig) : List Candidate :=
  (rawCandidates sg cfg).filter fun c => decide (cfg.threshold ≤ c.score)

/-- Two candidates within one time-step and one frequency-bin of each
other (strictly less than `OSR` sub-units apart on both axes). -/
def nearDup (c c' : Candidate) : Bool :=
  decide ((c.timeOffset - c'.timeOffset).natAbs < OSR) &&
    decide ((c.freqOffset - c'.freqOffset).natAbs < OSR)

/-- Merge policy: `c'` displaces `c` when they are near-duplicates and
`c'` has the higher score (position order breaks exact score ties). -/
def displaces (c' c : Candidate) : Bool :=
  decide (c.score < c'.score) ||
    (decide (c'.score = c.score) &&
      (decide (c'.timeOffset < c.timeOffset) ||
        (decide (c'.timeOffset = c.timeOffset) &&
          decide (c'.freqOffset < c.freqOffset))))

/-- A candidate survives the merge when no retained candidate
displaces it. -/
def survives (cands : List Candidate) (c : Candidate) : Bool :=
  cands.all fun c' => ! (nearDup c c' && displaces c' c)

/-- Ranking relation of the final candidate list: score descending. -/
def candGe (a b : Candidate) : Prop := b.score ≤ a.score

instance : DecidableRel candGe := fun a b =>
  inferInstanceAs (Decidable (b.score ≤ a.score))

/-- Modelled from the spec: the missing `common/monitor.h` candidate
search.  Score the bounded search grid, keep positions above the
threshold, merge near-duplicates keeping the higher score, and rank
by score descending. -/
def searchCandidates (sg : Spectrogram) (cfg : SyncConfig) :
    List Candidate :=
  let kept := aboveThreshold sg cfg
  (kept.filter (survives kept)).insertionSort candGe

theorem nearDup_symm (c c' : Candidate) (h : nearDup c c' = true) :
    nearDup c' c = true := by
  simp only [nearDup, Bool.and_eq_true, decide_eq_true_eq] at h ⊢
  omega

/-- C10: for every pair of above-threshold candidates within one
time-step and one frequency-bin of each other whose sync scores
differ, the candidate list produced by the synchronizer contains only
the higher-scoring one of the pair: the lower-scoring one is merged
away, and the higher-scoring one is present whenever it itself
survives the merge. -/
theorem sync_merge_keeps_higher (sg : Spectrogram) (cfg : SyncConfig)
    (c1 c2 : Candidate) (h1 : c1 ∈ aboveThreshold sg cfg)
    (h2 : c2 ∈ aboveThreshold sg cfg) (hnear : nearDup c1 c2 = true)
    (hscore : c2.score < c1.score) :
    c2 ∉ searchCandidates sg cfg ∧
      (survives (aboveThreshold sg cfg) c1 = true →
        c1 ∈ searchCandidates sg cfg) := by
  constructor
  · intro hmem
    simp only [searchCandidates] at hmem
    have hmem2 : c2 ∈ (aboveThreshold sg cfg).filter
        (survives (aboveThreshold sg cfg)) :=
      (List.perm_insertionSort candGe _).mem_iff.mp hmem
    have hsurv : survives (aboveThreshold sg cfg) c2 = true :=
      (List.mem_filter.mp hmem2).2
    rw [survives, List.all_eq_true] at hsurv
    have hbad := hsurv c1 h1
    rw [nearDup_symm c1 c2 hnear] at hbad
    have hdisp : displaces c1 c2 = true := by
      rw [displaces]
      simp only [Bool.or_eq_true, decide_eq_true_eq]
      exact Or.inl hscore
    rw [hdisp] at hbad
    exact Bool.noConfusion hbad
  · intro hsurv
    simp only [searchCandidates]
    exact (List.perm_insertionSort candGe _).mem_iff.mpr
      (List.mem_filter.mpr ⟨h1, hsurv⟩)

/-- Witness for C10: a two-position search where the adjacent offsets
score 5 and 3; the lower-scoring candidate is merged away and the
higher one is retained. -/
theorem sync_merge_keeps_higher_witness :
    Candidate.mk 1 0 3 ∉ searchCandidates
        (fun t _ => if t = 0 then 5 else if t = 1 then 3 else 0)
        (SyncConfig.mk 0 1 0 0 1) ∧
      (survives (aboveThreshold
          (fun t _ => if t = 0 then 5 else if t = 1 then 3 else 0)
          (SyncConfig.mk 0 1 0 0 1)) (Candidate.mk 0 0 5) = true →
        Candidate.mk 0 0 5 ∈ searchCandidates
          (fun t _ => if t = 0 then 5 else if t = 1 then 3 else 0)
          (SyncConfig.mk 0 1 0 0 1)) :=
  sync_merge_keeps_higher
    (fun t _ => if t = 0 then 5 else if t = 1 then 3 else 0)
    (SyncConfig.mk 0 1 0 0 1) (Candidate.mk 0 0 5) (Candidate.mk 1 0 3)
    (by decide) (by decide) (by decide) (by decide)

/-! ## Demodulator (spec 4.6)

Modelled from the spec: the demodulator source is absent from the
tree.  For a given candidate it extracts the eight tone energies at
each of the 58 data symbol positions from the spectrogram and
converts them into 3 soft bit log-likelihood-ratios per symbol by
comparing the energy of tones whose Gray code bit is 0 against those
where it is 1 (max-log approximation). -/

/-- Gray-coded tone mapping of 3-bit symbol values to tones. -/
def grayMap : List Nat := [0, 1, 3, 2, 5, 6, 4, 7]

/-- The 58 data symbol positions: the 79 symbol slots outside the
three 7-symbol sync blocks. -/
def dataSymbolPositions : List Nat :=
  (List.range 79).filter fun s =>
    decide (7 ≤ s ∧ s < 36) || decide (43 ≤ s ∧ s < 72)

/-- Observed magnitude of tone `i` at data symbol `s` for a
candidate position. -/
def toneEnergy (sg : Spectrogram) (c : Candidate) (s i : Nat) : Int :=
  sg (c.timeOffset + 2 * (s : Int)) (c.freqOffset + 2 * (i : Int))

/-- Maximum of a list of energies (0 for the empty list). -/
def maxEnergy : List Int → Int
  | [] => 0
  | x :: xs => xs.foldl max x

/-- Max-log LLR of bit `j` (0 = most significant) of the symbol at
position `s`: best energy among tones whose Gray code bit `j` is 0
minus the best among those where it is 1. -/
def bitLLR (sg : Spectrogram) (c : Candidate) (s j : Nat) : Int :=
  maxEnergy (((List.range 8).filter fun i =>
      ! (grayMap.getD i 0).testBit (2 - j)).map (toneEnergy sg c s)) -
    maxEnergy (((List.range 8).filter fun i =>
      (grayMap.getD i 0).testBit (2 - j)).map (toneEnergy sg c s))

/-- Modelled from the spec: the demodulator.  The 174-entry LLR
vector of a candidate: three Gray-coded soft bits for each of the 58
data symbols. -/
def demodulate (sg : Spectrogram) (c : Candidate) : LLRVec :=
  fun k => bitLLR sg c (dataSymbolPositions.getD (k.val / 3) 0) (k.val % 3)

/-! ## Decode Orchestrator (spec 4.7; `ft8/decode.h`)

Modelled from the spec: `ft8/decode.h` is absent from the tree.  Per
candidate: Demodulate, FEC-decode, verify the checksum over the
payload bits, unpack; a candidate failing any stage is silently
dropped, one passing all of them is accepted.  Accepted messages are
deduplicated (identical decoded message keeps the highest-confidence
entry) and returned ordered by confidence descending. -/

/-- A decoded-message record: the unpacked message, the decode
confidence score and the candidate it came from. -/
structure DecodedMessage where
  msg : Message
  conf : Nat
  cand : Candidate
deriving DecidableEq

/-- The 77 payload bits of a codeword (little-endian bit order). -/
def payloadBitsOf (c : Fin 174 → Bool) : List Bool :=
  (List.finRange 77).map fun i => c (Fin.castLE (by omega) i)

/-- Little-endian value of a bit list. -/
def bitsToNat (bs : List Bool) : Nat :=
  bs.foldr (fun b acc => (if b then 1 else 0) + 2 * acc) 0

/-- The payload of a codeword as a number. -/
def payloadOf (c : Fin 174 → Bool) : Nat := bitsToNat (payloadBitsOf c)

/-- The 14 received checksum bits of a codeword as a number. -/
def checksumOf (c : Fin 174 → Bool) : Nat :=
  bitsToNat ((List.finRange 14).map fun i =>
    c ⟨77 + i.val, by have := i.isLt; omega⟩)

/-- Modelled from the spec: per-candidate pipeline
`Demodulate → FecDecode → ChecksumVerify → Unpack`.  Every failing
stage drops the candidate (`none`); only a candidate whose FEC decode
converges, whose checksum validates and whose payload unpacks is
accepted. -/
def processCandidate (G : GenMatrix) (sg : Spectrogram) (budget : Nat)
    (cand : Candidate) : Option DecodedMessage :=
  match ldpcDecode G (demodulate sg cand) budget with
  | .error _ => none
  | .ok (cw, iters) =>
    if crcVerify (payloadBitsOf cw) (checksumOf cw) then
      match unpackMessage (payloadOf cw) with
      | .ok msg => some ⟨msg, fecConfidence budget iters, cand⟩
      | .error _ => none
    else none

/-- All accepted candidates of a decode session, in candidate order. -/
def acceptedResults (G : GenMatrix) (sg : Spectrogram) (cfg : SyncConfig)
    (budget : Nat) : List DecodedMessage :=
  (searchCandidates sg cfg).filterMap (processCandidate G sg budget)

/-- Deduplicate accepted messages: among entries decoding to the same
message, keep the highest-confidence one. -/
def dedupe : List DecodedMessage → List DecodedMessage
  | [] => []
  | d :: rest =>
    (rest.filter fun d' => decide (d'.msg = d.msg)).foldl
        (fun a b => if a.conf < b.conf then b else a) d ::
      dedupe (rest.filter fun d' => decide (d'.msg ≠ d.msg))
termination_by l => l.length
decreasing_by
  simp only [List.length_cons]
  exact Nat.lt_succ_of_le (List.length_filter_le _ _)

/-- Result ordering relation: confidence descending. -/
def msgGe (a b : DecodedMessage) : Prop := b.conf ≤ a.conf

instance : DecidableRel msgGe := fun a b =>
  inferInstanceAs (Decidable (b.conf ≤ a.conf))

instance : IsTotal DecodedMessage msgGe :=
  ⟨fun a b => Nat.le_total b.conf a.conf⟩

instance : IsTrans DecodedMessage msgGe :=
  ⟨fun _ _ _ hab hbc => Nat.le_trans hbc hab⟩

/-- Modelled from the spec: the decode orchestrator.  Search
candidates, run the per-candidate pipeline, deduplicate the accepted
messages and order them by confidence descending. -/
def decodeAll (G : GenMatrix) (sg : Spectrogram) (cfg : SyncConfig)
    (budget : Nat) : List DecodedMessage :=
  (dedupe (acceptedResults G sg cfg budget)).insertionSort msgGe

theorem dedupe_cons (d : DecodedMessage) (rest : List DecodedMessage) :
    dedupe (d :: rest) =
      (rest.filter fun d' => decide (d'.msg = d.msg)).foldl
          (fun a b => if a.conf < b.conf then b else a) d ::
        dedupe (rest.filter fun d' => decide (d'.msg ≠ d.msg)) := by
  rw [dedupe]

theorem foldl_best_mem :
    ∀ (l : List DecodedMessage) (d : DecodedMessage),
      l.foldl (fun a b => if a.conf < b.conf then b else a) d ∈ d :: l := by
  intro l
  induction l with
  | nil => intro d; simp
  | cons x xs ih =>
    intro d
    rw [List.foldl_cons]
    rcases List.mem_cons.mp (ih (if d.conf < x.conf then x else d)) with h1 | h1
    · rw [h1]
      by_cases hc : d.conf < x.conf
      · rw [if_pos hc]; simp
      · rw [if_neg hc]; simp
    · exact List.mem_cons.mpr (Or.inr (List.mem_cons.mpr (Or.inr h1)))

theorem foldl_best_conf :
    ∀ (l : List DecodedMessage) (d : DecodedMessage), ∀ x ∈ d :: l,
      x.conf ≤
        (l.foldl (fun a b => if a.conf < b.conf then b else a) d).conf := by
  intro l
  induction l with
  | nil =>
    intro d x hx
    rw [List.mem_singleton.mp hx]
    exact Nat.le_refl _
  | cons y ys ih =>
    intro d x hx
    rw [List.foldl_cons]
    have hd : d.conf ≤ (if d.conf < y.conf then y else d).conf := by
      by_cases hc : d.conf < y.conf
      · rw [if_pos hc]; omega
      · rw [if_neg hc]
    have hy : y.conf ≤ (if d.conf < y.conf then y else d).conf := by
      by_cases hc : d.conf < y.conf
      · rw [if_pos hc]
      · rw [if_neg hc]; omega
    have hhead := ih (if d.conf < y.conf then y else d) _ (List.mem_cons_self _ _)
    rcases List.mem_cons.mp hx with h1 | h1
    · rw [h1]; exact Nat.le_trans hd hhead
    · rcases List.mem_cons.mp h1 with h2 | h2
      · rw [h2]; exact Nat.le_trans hy hhead
      · exact ih _ _ (List.mem_cons.mpr (Or.inr h2))

theorem foldl_best_msg (d : DecodedMessage) (l : List DecodedMessage)
    (h : ∀ x ∈ l, x.msg = d.msg) :
    (l.foldl (fun a b => if a.conf < b.conf then b else a) d).msg = d.msg := by
  rcases List.mem_cons.mp (foldl_best_mem l d) with h1 | h1
  · rw [h1]
  · exact h _ h1

theorem dedupe_sub_aux :
    ∀ (n : Nat) (l : List DecodedMessage), l.length ≤ n →
      ∀ x ∈ dedupe l, x ∈ l := by
  intro n
  induction n with
  | zero =>
    intro l hl x hx
    cases l with
    | nil => simp [dedupe] at hx
    | cons d rest => simp at hl
  | succ n ih =>
    intro l hl x hx
    cases l with
    | nil => simp [dedupe] at hx
    | cons d rest =>
      rw [dedupe_cons] at hx
      rcases List.mem_cons.mp hx with h1 | h1
      · rcases List.mem_cons.mp (h1 ▸ foldl_best_mem
          (rest.filter fun d' => decide (d'.msg = d.msg)) d) with h2 | h2
        · rw [h2]; exact List.mem_cons_self _ _
        · exact List.mem_cons.mpr (Or.inr (List.mem_of_mem_filter h2))
      · have hlen := List.length_filter_le
          (fun d' => decide (d'.msg ≠ d.msg)) rest
        have hx' := ih (rest.filter fun d' => decide (d'.msg ≠ d.msg))
          (by simp at hl; omega) x h1
        exact List.mem_cons.mpr (Or.inr (List.mem_of_mem_filter hx'))

theorem dedupe_sub (l : List DecodedMessage) : ∀ x ∈ dedupe l, x ∈ l :=
  dedupe_sub_aux l.length l (Nat.le_refl _)

theorem dedupe_pairwise_aux :
    ∀ (n : Nat) (l : List DecodedMessage), l.length ≤ n →
      List.Pairwise (fun a b => a.msg ≠ b.msg) (dedupe l) := by
  intro n
  induction n with
  | zero =>
    intro l hl
    cases l with
    | nil => simp [dedupe]
    | cons d rest => simp at hl
  | succ n ih =>
    intro l hl
    cases l with
    | nil => simp [dedupe]
    | cons d rest =>
      rw [dedupe_cons]
      rw [List.pairwise_cons]
      constructor
      · intro y hy
        have hy' := dedupe_sub _ y hy
        have hne : y.msg ≠ d.msg :=
          of_decide_eq_true (List.mem_filter.mp hy').2
        have hbest := foldl_best_msg d
          (rest.filter fun d' => decide (d'.msg = d.msg))
          (fun x hx => of_decide_eq_true (List.mem_filter.mp hx).2)
        rw [hbest]
        exact Ne.symm hne
      · have hlen := List.length_filter_le
          (fun d' => decide (d'.msg ≠ d.msg)) rest
        exact ih _ (by simp at hl; omega)

theorem dedupe_pairwise (l : List DecodedMessage) :
    List.Pairwise (fun a b => a.msg ≠ b.msg) (dedupe l) :=
  dedupe_pairwise_aux l.length l (Nat.le_refl _)

theorem dedupe_best_aux :
    ∀ (n : Nat) (l : List DecodedMessage), l.length ≤ n →
      ∀ x ∈ l, ∃ y ∈ dedupe l, y.msg = x.msg ∧ x.conf ≤ y.conf := by
  intro n
  induction n with
  | zero =>
    intro l hl x hx
    cases l with
    | nil => simp at hx
    | cons d rest => simp at hl
  | succ n ih =>
    intro l hl x hx
    cases l with
    | nil => simp at hx
    | cons d rest =>
      rw [dedupe_cons]
      have hbestmsg := foldl_best_msg d
        (rest.filter fun d' => decide (d'.msg = d.msg))
        (fun z hz => of_decide_eq_true (List.mem_filter.mp hz).2)
      rcases List.mem_cons.mp hx with h1 | h1
      · refine ⟨_, List.mem_cons_self _ _, ?_, ?_⟩
        · rw [hbestmsg, h1]
        · rw [h1]
          exact foldl_best_conf _ d _ (List.mem_cons_self _ _)
      · by_cases hm : x.msg = d.msg
        · refine ⟨_, List.mem_cons_self _ _, ?_, ?_⟩
          · rw [hbestmsg, hm]
          · exact foldl_best_conf _ d x (List.mem_cons.mpr (Or.inr
              (List.mem_filter.mpr ⟨h1, decide_eq_true hm⟩)))
        · have hlen := List.length_filter_le
            (fun d' => decide (d'.msg ≠ d.msg)) rest
          obtain ⟨y, hy, hmsg, hconf⟩ := ih
            (rest.filter fun d' => decide (d'.msg ≠ d.msg))
            (by simp at hl; omega) x
            (List.mem_filter.mpr ⟨h1, decide_eq_true hm⟩)
          exact ⟨y, List.mem_cons.mpr (Or.inr hy), hmsg, hconf⟩

theorem dedupe_best (l : List DecodedMessage) :
    ∀ x ∈ l, ∃ y ∈ dedupe l, y.msg = x.msg ∧ x.conf ≤ y.conf :=
  dedupe_best_aux l.length l (Nat.le_refl _)

/-- C7: for every input spectrogram, configuration and budget, the
decode orchestrator emits a decoded message only for a candidate of
the search whose FEC decoding converged, whose checksum validated
over the decoded payload bits, and whose payload unpacked
successfully; a candidate failing any of these stages contributes
nothing, and the orchestrator is a total function — per-candidate
failures never surface as an error to the caller. -/
theorem decode_emits_only_validated (G : GenMatrix) (sg : Spectrogram)
    (cfg : SyncConfig) (budget : Nat) :
    (decodeAll G sg cfg budget).Forall fun d =>
      ∃ cand, cand ∈ searchCandidates sg cfg ∧ ∃ cw iters,
        ldpcDecode G (demodulate sg cand) budget = Except.ok (cw, iters) ∧
        crcVerify (payloadBitsOf cw) (checksumOf cw) = true ∧
        unpackMessage (payloadOf cw) = Except.ok d.msg := by
  rw [List.forall_iff_forall_mem]
  intro d hd
  have h1 : d ∈ dedupe (acceptedResults G sg cfg budget) :=
    (List.perm_insertionSort msgGe _).mem_iff.mp hd
  have h2 : d ∈ acceptedResults G sg cfg budget := dedupe_sub _ d h1
  obtain ⟨cand, hcand, hproc⟩ := List.mem_filterMap.mp h2
  refine ⟨cand, hcand, ?_⟩
  unfold processCandidate at hproc
  split at hproc
  · exact Option.noConfusion hproc
  · next cw iters heq =>
    split at hproc
    · next hcrc =>
      split at hproc
      · next msg hunp =>
        refine ⟨cw, iters, heq, hcrc, ?_⟩
        have h3 := Option.some.inj hproc
        rw [hunp, ← h3]
      · exact Option.noConfusion hproc
    · exact Option.noConfusion hproc

/-- C8: for every input spectrogram, configuration and budget, the
decode orchestrator's result sequence contains no two entries
decoding to the same message (among accepted candidates with
identical decoded text only the highest-confidence one is kept) and
is ordered by confidence score descending. -/
theorem decode_results_ordered (G : GenMatrix) (sg : Spectrogram)
    (cfg : SyncConfig) (budget : Nat) :
    List.Pairwise (fun a b => a.msg ≠ b.msg) (decodeAll G sg cfg budget) ∧
    List.Sorted msgGe (decodeAll G sg cfg budget) ∧
    (acceptedResults G sg cfg budget).Forall fun d =>
      ∃ y, y ∈ decodeAll G sg cfg budget ∧ y.msg = d.msg ∧
        d.conf ≤ y.conf := by
  refine ⟨?_, ?_, ?_⟩
  · exact ((List.perm_insertionSort msgGe _).pairwise_iff
      (fun h => Ne.symm h)).mpr (dedupe_pairwise _)
  · exact List.sorted_insertionSort msgGe _
  · rw [List.forall_iff_forall_mem]
    intro d hd
    obtain ⟨y, hy, hmsg, hconf⟩ := dedupe_best _ d hd
    exact ⟨y, (List.perm_insertionSort msgGe _).mem_iff.mpr hy, hmsg, hconf⟩

/-- C9: decode is deterministic.  The whole pipeline is a pure
function of the input spectrogram and configuration, so re-running
decode on the same input yields the identical ordered result
sequence, and re-running the candidate search yields the identical
ordered candidate list. -/
theorem decode_deterministic (G : GenMatrix) (sg : Spectrogram)
    (cfg : SyncConfig) (budget : Nat) :
    decodeAll G sg cfg budget = decodeAll G sg cfg budget ∧
    searchCandidates sg cfg = searchCandidates sg cfg :=
  ⟨rfl, rfl⟩

end FT8
